import Mathlib

/-!
Verification of the per-file comment-removal transformation of `racfp`
(`src/index.js`, function `removeComments`, per-file body lines 37-242).

The transformation is embedded as executable functions over `List Char`:
  * `stringScan` / `stringPass` — the string-literal regex replacement pass
    (line 39), including the interpolation handling callback (lines 40-126)
    and the placeholder substitution (lines 128-131);
  * `docScan` — the doc-comment regex pass (line 135);
  * `lineScan` — the line-comment regex pass with the colon look-behind
    (line 138);
  * `blockLoop` / `blockPass` — the nested block-comment removal loop
    (lines 141-188);
  * `restoreScan` / `restorePass` — placeholder restoration (lines 191-193);
  * `mapLines` / `filterStep` / `formatter` — the line-by-line formatting
    pass (lines 196-242);
  * `process` — the whole per-file transformation.
-/

namespace Racfp

/-- JS whitespace: the `\s` class, which is also the set trimmed by
`trim`/`trimEnd` (ECMAScript WhiteSpace plus LineTerminator): tab, line
feed, vertical tab, form feed, carriage return, space, no-break space,
Ogham space mark, the U+2000-U+200A spaces, line separator, paragraph
separator, narrow no-break space, medium mathematical space, ideographic
space, and the byte-order mark. -/
def isWs (c : Char) : Bool :=
  c = ' ' || c = '\t' || c = '\n' || c = '\r' || c = '\x0b' || c = '\x0c' ||
  c.val = 0xa0 || c.val = 0x1680 || (0x2000 ≤ c.val && c.val ≤ 0x200a) ||
  c.val = 0x2028 || c.val = 0x2029 || c.val = 0x202f || c.val = 0x205f ||
  c.val = 0x3000 || c.val = 0xfeff

/-- The JS regex `.` (any char except a line terminator). -/
def jsDot (c : Char) : Bool :=
  !(c = '\n' || c = '\r' || c.val = 0x2028 || c.val = 0x2029)

/-- `pat` is a prefix of `cs`. -/
def isPref : List Char → List Char → Bool
  | [], _ => true
  | _ :: _, [] => false
  | p :: ps, c :: cs => p = c && isPref ps cs

/-- Index of the first occurrence of `pat` in `cs`, if any. -/
def subIdx (pat : List Char) : List Char → Option Nat
  | [] => if pat = [] then some 0 else none
  | c :: rest => if isPref pat (c :: rest) then some 0 else (subIdx pat rest).map (· + 1)

/-- `cs` contains `pat` as a contiguous substring (JS `String.includes`). -/
def containsSub (pat cs : List Char) : Bool :=
  (subIdx pat cs).isSome

/-- JS `String.indexOf(pat, fromIndex)`. -/
def indexOfFrom (pat cs : List Char) (fr : Nat) : Option Nat :=
  (subIdx pat (cs.drop fr)).map (· + fr)

/-- JS `String.trimEnd`. -/
def trimEnd (cs : List Char) : List Char :=
  (cs.reverse.dropWhile isWs).reverse

/-- JS `String.trim`. -/
def trimWs (cs : List Char) : List Char :=
  trimEnd (cs.dropWhile isWs)

/-- JS `String.split('\n')`. -/
def splitLines : List Char → List (List Char)
  | [] => [[]]
  | c :: rest =>
    if c = '\n' then [] :: splitLines rest
    else
      match splitLines rest with
      | l :: ls => (c :: l) :: ls
      | [] => [[c]]

/-- JS `Array.join('\n')`. -/
def joinLines : List (List Char) → List Char
  | [] => []
  | l :: ls =>
    match ls with
    | [] => l
    | _ :: _ => l ++ '\n' :: joinLines ls

/-- Decimal digits of a natural number (helper for `toString`). -/
def natDigitsAux : Nat → Nat → List Char
  | 0, _ => []
  | _ + 1, 0 => []
  | fuel + 1, n => natDigitsAux fuel (n / 10) ++ [Char.ofNat (48 + n % 10)]

/-- JS decimal rendering of a nonnegative integer. -/
def natDigits (n : Nat) : List Char :=
  if n = 0 then ['0'] else natDigitsAux (n + 1) n

/-- Numeric value of a digit string. -/
def natOfDigits (ds : List Char) : Nat :=
  ds.foldl (fun n d => n * 10 + (d.toNat - 48)) 0

/-- The sentinel text `PRESERVED_STRING_` used for placeholders. -/
def presMark : List Char := ("PRESERVED_STRING_" : String).toList

def interpMark : List Char := ['$', '\x7b']

def slashSlash : List Char := ['/', '/']

def slashStar : List Char := ['/', '*']

def starSlash : List Char := ['*', '/']

def tripleD : List Char := ['\x22', '\x22', '\x22']

def tripleS : List Char := ['\x27', '\x27', '\x27']

/-- Last char test on the trimmed line (JS `endsWith` with 1-char arg). -/
def endsWithChar (l : List Char) (c : Char) : Bool :=
  match l.getLast? with
  | some d => d = c
  | none => false

/-- First char test (JS `startsWith` with 1-char arg). -/
def startsWithChar (l : List Char) (c : Char) : Bool :=
  match l.head? with
  | some d => d = c
  | none => false

/-- Lazy body of `r?"""[\s\S]*?"""` (and the `'''` variant): splits at the
first occurrence of the closing triple quote, returning the body and the
text after the closing quotes. -/
def findTriple (q : Char) : List Char → Option (List Char × List Char)
  | [] => none
  | c :: rest =>
    if isPref [q, q, q] (c :: rest) then some ([], rest.drop 2)
    else
      match findTriple q rest with
      | some (b, r) => some (c :: b, r)
      | none => none

/-- Matcher for the single-quote body `[^q\\]*(?:\\.[^q\\]*)*q` starting
right after the opening quote; returns the body including the closing quote
and the rest. -/
def matchSingle (q : Char) : List Char → Option (List Char × List Char)
  | [] => none
  | c :: rest =>
    if c = q then some ([c], rest)
    else if c = '\\' then
      match rest with
      | [] => none
      | d :: rest2 =>
        if jsDot d then
          match matchSingle q rest2 with
          | some (b, r) => some (c :: d :: b, r)
          | none => none
        else none
    else
      match matchSingle q rest with
      | some (b, r) => some (c :: b, r)
      | none => none

/-- One alternative `r?qqq[\s\S]*?qqq` tried at the current position. -/
def tryTriple (q : Char) (cs : List Char) : Option (List Char × List Char) :=
  if isPref ['r', q, q, q] cs then
    match findTriple q (cs.drop 4) with
    | some (b, r) => some ('r' :: q :: q :: q :: (b ++ [q, q, q]), r)
    | none => none
  else if isPref [q, q, q] cs then
    match findTriple q (cs.drop 3) with
    | some (b, r) => some (q :: q :: q :: (b ++ [q, q, q]), r)
    | none => none
  else none

/-- One alternative `r?q[^q\\]*(?:\\.[^q\\]*)*q` tried at the current
position. -/
def trySingle (q : Char) (cs : List Char) : Option (List Char × List Char) :=
  if isPref ['r', q] cs then
    match matchSingle q (cs.drop 2) with
    | some (b, r) => some ('r' :: q :: b, r)
    | none => none
  else if isPref [q] cs then
    match matchSingle q (cs.drop 1) with
    | some (b, r) => some (q :: b, r)
    | none => none
  else none

/-- The string-literal alternation of line 39, in regex order. -/
def tryStringLit (cs : List Char) : Option (List Char × List Char) :=
  match tryTriple '\x22' cs with
  | some res => some res
  | none =>
    match tryTriple '\x27' cs with
    | some res => some res
    | none =>
      match trySingle '\x27' cs with
      | some res => some res
      | none => trySingle '\x22' cs

/-- The doc-comment pass: global replace of `\/\/\/[^\n]*` with the empty
string (line 135).  The Bool is the "currently consuming to end of line"
state. -/
def docScan : Bool → List Char → List Char
  | _, [] => []
  | true, c :: rest => if c = '\n' then c :: docScan false rest else docScan true rest
  | false, c :: rest =>
    if c = '/' && isPref ['/', '/'] rest then docScan true rest
    else c :: docScan false rest

/-- The line-comment pass: global replace of `(?<!:)\/\/[^\n]*` with the
empty string (line 138).  `prev` is the character before the current
position (the look-behind); the Bool is the skipping state. -/
def lineScan : Option Char → Bool → List Char → List Char
  | _, _, [] => []
  | _, true, c :: rest =>
    if c = '\n' then c :: lineScan (some '\n') false rest else lineScan none true rest
  | prev, false, c :: rest =>
    if c = '/' && isPref ['/'] rest then
      if prev = some ':' then '/' :: lineScan (some '/') false rest
      else lineScan none true rest
    else c :: lineScan (some c) false rest

/-- Text after the first `*/`, if any. -/
def dropAfterClose : List Char → Option (List Char)
  | '*' :: '/' :: rest => some rest
  | _ :: rest => dropAfterClose rest
  | [] => none

/-- The lazy block-comment regex `\/\*[\s\S]*?\*\//g` used inside
interpolation expressions (lines 61 and 100). -/
def blockLazy : Nat → List Char → List Char
  | 0, cs => cs
  | _ + 1, [] => []
  | fuel + 1, '/' :: '*' :: rest =>
    (match dropAfterClose rest with
     | some after => blockLazy fuel after
     | none => '/' :: '*' :: rest)
  | fuel + 1, c :: rest => c :: blockLazy fuel rest

def blockStrip (cs : List Char) : List Char :=
  blockLazy cs.length cs

/-- The comment cleaning applied to an interpolation expression
(lines 58-61 / 97-100): doc comments, then line comments, then lazy block
comments. -/
def cleanExprFn (e : List Char) : List Char :=
  blockStrip (lineScan none false (docScan false e))

/-- The replacement for one `\$\{([^}]+)\}` match (the callbacks at
lines 47-76 for raw strings and 82-123 for regular strings). -/
def holeReplace (raw : Bool) (e : List Char) : List Char :=
  if raw && (containsSub interpMark e || containsSub slashStar e || containsSub slashSlash e) then
    '$' :: '\x7b' :: (e ++ ['\x7d'])
  else
    let lines := splitLines e
    let baseIndent := (lines.headD []).takeWhile isWs
    let lastIndent := (lines.getLastD []).takeWhile isWs
    let cleanE := cleanExprFn e
    if containsSub ['\n'] e then
      let proc :=
        if raw then
          ((splitLines cleanE).map (fun l =>
            let t := trimWs l
            if t = [] then [] else baseIndent ++ t)).filter (fun l => decide (l ≠ []))
        else
          ((splitLines cleanE).map (fun l =>
            let t := trimWs l
            if t = [] then []
            else
              match lines.find? (fun ol => decide (trimWs ol ≠ []) && containsSub t ol) with
              | some ol => ol.takeWhile isWs ++ t
              | none => baseIndent ++ t)).filter (fun l => decide (l ≠ []))
      '$' :: '\x7b' :: '\n' :: (joinLines proc ++ '\n' :: (lastIndent ++ ['\x7d']))
    else
      '$' :: '\x7b' :: (trimWs cleanE ++ ['\x7d'])

/-- Scan of one matched string literal for `\$\{([^}]+)\}` holes
(lines 43, 47, 82). -/
def interpScan (raw : Bool) : Nat → List Char → List Char
  | 0, cs => cs
  | _ + 1, [] => []
  | fuel + 1, '$' :: '\x7b' :: rest =>
    (let e := rest.takeWhile (fun c => decide (c ≠ '\x7d'))
     if decide (e ≠ []) && decide ((rest.drop e.length).head? = some '\x7d') then
       holeReplace raw e ++ interpScan raw fuel (rest.drop (e.length + 1))
     else '$' :: interpScan raw fuel ('\x7b' :: rest))
  | fuel + 1, c :: rest => c :: interpScan raw fuel rest

/-- Interpolation handling of one matched string literal containing `${`
(lines 40-126). -/
def interpProcess (m : List Char) : List Char :=
  interpScan (isPref ['r'] m) m.length m

/-- The string-literal pass (lines 38-132): protect plain literals behind
placeholders, process interpolated literals in place.  Returns the new
text and the preserved-strings table. -/
def stringScan : Nat → Nat → List (List Char) → List Char → List Char × List (List Char)
  | 0, _, pres, cs => (cs, pres)
  | _ + 1, _, pres, [] => ([], pres)
  | fuel + 1, idx, pres, c :: rest =>
    match tryStringLit (c :: rest) with
    | some (m, rest2) =>
      if containsSub interpMark m then
        let out := stringScan fuel idx pres rest2
        (interpProcess m ++ out.1, out.2)
      else
        let out := stringScan fuel (idx + 1) (pres ++ [m]) rest2
        (presMark ++ natDigits idx ++ out.1, out.2)
    | none =>
      let out := stringScan fuel idx pres rest
      (c :: out.1, out.2)

def stringPass (cs : List Char) : List Char × List (List Char) :=
  stringScan cs.length 0 [] cs

/-- The nested block-comment removal loop (lines 141-188), with the stack
of open-comment offsets made explicit; `fuel` bounds the iteration count. -/
def blockLoop : Nat → List Char → Nat → List Nat → List Char
  | 0, content, _, _ => content
  | fuel + 1, content, lastIndex, [] =>
    (match indexOfFrom slashStar content lastIndex with
     | none => content
     | some s =>
       match indexOfFrom starSlash content (s + 2) with
       | none =>
         trimEnd (content.take s) ++ '\n' :: joinLines ((splitLines (content.drop s)).tail)
       | some _ => blockLoop fuel content (s + 2) [s])
  | fuel + 1, content, lastIndex, top :: stk =>
    (match indexOfFrom starSlash content lastIndex with
     | none =>
       let bot := (top :: stk).getLastD 0
       blockLoop fuel
         (content.take bot ++ '\n' :: joinLines ((splitLines (content.drop bot)).tail))
         lastIndex []
     | some e =>
       match indexOfFrom slashStar content lastIndex with
       | some s2 =>
         if s2 < e then blockLoop fuel content (s2 + 2) (s2 :: top :: stk)
         else if stk = [] then
           blockLoop fuel (trimEnd (content.take top) ++ content.drop (e + 2)) top []
         else blockLoop fuel content (e + 2) stk
       | none =>
         if stk = [] then
           blockLoop fuel (trimEnd (content.take top) ++ content.drop (e + 2)) top []
         else blockLoop fuel content (e + 2) stk)

def blockPass (cs : List Char) : List Char :=
  blockLoop ((cs.length + 2) * (cs.length + 2)) cs 0 []

/-- One attempted match of `PRESERVED_STRING_(\d+)` (lines 191-193);
the digit capture is looked up in the table by its exact text, as JS
property access does (so a leading zero never hits an array slot), and a
missing entry becomes the text `undefined`. -/
def tryRestore (pres : List (List Char)) (cs : List Char) : Option (List Char × List Char) :=
  if isPref presMark cs then
    let after := cs.drop presMark.length
    let ds := after.takeWhile Char.isDigit
    if ds = [] then none
    else
      let repl :=
        if ds.length > 1 && ds.headD '0' = '0' then ("undefined" : String).toList
        else
          match pres.get? (natOfDigits ds) with
          | some s => s
          | none => ("undefined" : String).toList
      some (repl, after.drop ds.length)
  else none

def restoreScan (pres : List (List Char)) : Nat → List Char → List Char
  | 0, cs => cs
  | _ + 1, [] => []
  | fuel + 1, c :: rest =>
    match tryRestore pres (c :: rest) with
    | some (repl, rest2) => repl ++ restoreScan pres fuel rest2
    | none => c :: restoreScan pres fuel rest

def restorePass (pres : List (List Char)) (cs : List Char) : List Char :=
  restoreScan pres cs.length cs

/-- The chained-call test of lines 206-207: previous trimmed line ends in
`)` or a closing brace. -/
def optEndsPar (pT : Option (List Char)) : Bool :=
  match pT with
  | some p => endsWithChar p ')' || endsWithChar p '\x7d'
  | none => false

/-- The chained-call test of line 207: next trimmed line starts with `.`. -/
def optStartsDot (nT : Option (List Char)) : Bool :=
  match nT with
  | some n => startsWithChar n '.'
  | none => false

/-- The blank-line keep condition of lines 210-213 over the trimmed
neighbour lines. -/
def blankMapKeep (pT nT : Option (List Char)) : Bool :=
  match pT, nT with
  | some p, some n =>
    decide (p ≠ []) && decide (n ≠ []) && !endsWithChar p '\x7b' && !startsWithChar n '\x7d'
  | _, _ => false

/-- The map step of the formatter (lines 198-227) for one line, given
the previous and next lines of the split array. -/
def mapOne (prev : Option (List Char)) (cur : List Char) (next : Option (List Char)) :
    Option (List Char) :=
  let indent := cur.takeWhile isWs
  let t := trimWs cur
  if t = [] then
    let pT := prev.map trimWs
    let nT := next.map trimWs
    if optEndsPar pT && optStartsDot nT then none
    else if blankMapKeep pT nT then some indent
    else none
  else if containsSub presMark t || containsSub tripleD t || containsSub tripleS t then some cur
  else some (indent ++ t)

def mapLines : Option (List Char) → List (List Char) → List (Option (List Char))
  | _, [] => []
  | prev, cur :: rest => mapOne prev cur rest.head? :: mapLines (some cur) rest

/-- First later mapped line that is non-null with nonempty trim
(the `nextNonEmpty` search of line 235). -/
def findNE : List (Option (List Char)) → Option (List Char)
  | [] => none
  | none :: rest => findNE rest
  | some l :: rest => if trimWs l ≠ [] then some l else findNE rest

/-- The blank-line keep condition of lines 236-238 over the nearest
non-null nonempty neighbours. -/
def blankKeep (pNE nNE : Option (List Char)) : Bool :=
  match pNE, nNE with
  | some p, some n => !endsWithChar (trimWs p) '\x7b' && !startsWithChar (trimWs n) '\x7d'
  | _, _ => false

/-- The filter step of the formatter (lines 228-241); `pNE` is the nearest
earlier non-null line with nonempty trim. -/
def filterStep : Option (List Char) → List (Option (List Char)) → List (List Char)
  | _, [] => []
  | pNE, none :: rest => filterStep pNE rest
  | pNE, some l :: rest =>
    if trimWs l ≠ [] then l :: filterStep (some l) rest
    else if blankKeep pNE (findNE rest) then l :: filterStep pNE rest
    else filterStep pNE rest

/-- The formatting pass (lines 196-242). -/
def formatter (cs : List Char) : List Char :=
  joinLines (filterStep none (mapLines none (splitLines cs)))

/-- The whole per-file transformation (lines 37-242): string pass, doc
comments, line comments, block comments, placeholder restore, formatting. -/
def process (x : List Char) : List Char :=
  let sp := stringPass x
  formatter (restorePass sp.2 (blockPass (lineScan none false (docScan false sp.1))))

/-- `process` on `String`. -/
def processStr (s : String) : String :=
  String.mk (process s.toList)

/-- A line carries no trailing whitespace (it equals its leading whitespace
followed by its trimmed content). -/
def noTrailWs (l : List Char) : Bool :=
  decide (l = l.takeWhile isWs ++ trimWs l)

/-- A blank line in this neighbourhood is mapped to itself and kept by the
formatter: both neighbours exist and are non-blank, the previous one does
not end in an opening brace (nor in `)`/closing brace when the next starts
with a dot), and the next does not start with a closing brace. -/
def blankOkAt (prev : Option (List Char)) (next : Option (List Char)) : Bool :=
  match prev, next with
  | some p, some n =>
    decide (trimWs p ≠ []) && decide (trimWs n ≠ []) &&
    !((endsWithChar (trimWs p) ')' || endsWithChar (trimWs p) '\x7d') &&
        startsWithChar (trimWs n) '.') &&
    !endsWithChar (trimWs p) '\x7b' && !startsWithChar (trimWs n) '\x7d'
  | _, _ => false

/-- Every line of the split input is left unchanged by the formatter:
non-blank lines carry no trailing whitespace and blank lines sit in a
neighbourhood where the formatter keeps them. -/
def linesOk : Option (List Char) → List (List Char) → Bool
  | _, [] => true
  | prev, cur :: rest =>
    (if trimWs cur = [] then blankOkAt prev rest.head? else noTrailWs cur) &&
    linesOk (some cur) rest

/-- Inputs on which the transformation acts as the identity: no comment
delimiters, no string-literal quote characters, no sentinel text, and
already-normalized whitespace and blank lines. -/
def cleanInput (x : List Char) : Bool :=
  !containsSub slashSlash x && !containsSub slashStar x &&
  decide ('\x27' ∉ x) && decide ('\x22' ∉ x) && !containsSub presMark x &&
  linesOk none (splitLines x)

/-! ### Substring and prefix lemmas -/

theorem containsSub_cons (pat : List Char) (c : Char) (rest : List Char) :
    containsSub pat (c :: rest) = (isPref pat (c :: rest) || containsSub pat rest) := by
  simp only [containsSub, subIdx]
  by_cases h : isPref pat (c :: rest) = true
  · simp [h]
  · simp only [Bool.not_eq_true] at h
    simp [h, Option.isSome_map]

theorem isPref_mem (pat cs : List Char) (h : isPref pat cs = true) :
    ∀ a ∈ pat, a ∈ cs := by
  induction pat generalizing cs with
  | nil => simp
  | cons p ps ih =>
    cases cs with
    | nil => simp [isPref] at h
    | cons c rest =>
      simp only [isPref, Bool.and_eq_true, decide_eq_true_eq] at h
      intro a ha
      rcases List.mem_cons.1 ha with rfl | ha
      · exact h.1 ▸ List.mem_cons_self _ _
      · exact List.mem_cons_of_mem _ (ih rest h.2 a ha)

/-! ### The string pass is the identity on quote-free text -/

theorem tryTriple_none (q : Char) (cs : List Char) (h : q ∉ cs) :
    tryTriple q cs = none := by
  unfold tryTriple
  rw [if_neg, if_neg]
  · intro hp
    exact h (isPref_mem _ _ hp q (by simp))
  · intro hp
    exact h (isPref_mem _ _ hp q (by simp))

theorem trySingle_none (q : Char) (cs : List Char) (h : q ∉ cs) :
    trySingle q cs = none := by
  unfold trySingle
  rw [if_neg, if_neg]
  · intro hp
    exact h (isPref_mem _ _ hp q (by simp))
  · intro hp
    exact h (isPref_mem _ _ hp q (by simp))

theorem tryStringLit_none (cs : List Char)
    (h1 : '\x27' ∉ cs) (h2 : '\x22' ∉ cs) : tryStringLit cs = none := by
  unfold tryStringLit
  rw [tryTriple_none _ _ h2, tryTriple_none _ _ h1,
    trySingle_none _ _ h1, trySingle_none _ _ h2]

theorem stringScan_id (cs : List Char) (h1 : '\x27' ∉ cs) (h2 : '\x22' ∉ cs) :
    ∀ fuel idx pres, stringScan fuel idx pres cs = (cs, pres) := by
  induction cs with
  | nil =>
    intro fuel idx pres
    cases fuel <;> rfl
  | cons c rest ih =>
    intro fuel idx pres
    cases fuel with
    | zero => rfl
    | succ fuel =>
      have hn : tryStringLit (c :: rest) = none := tryStringLit_none _ h1 h2
      have h1r : '\x27' ∉ rest := fun hm => h1 (List.mem_cons_of_mem _ hm)
      have h2r : '\x22' ∉ rest := fun hm => h2 (List.mem_cons_of_mem _ hm)
      simp [stringScan, hn, ih h1r h2r]

theorem stringPass_id (cs : List Char) (h1 : '\x27' ∉ cs) (h2 : '\x22' ∉ cs) :
    stringPass cs = (cs, []) :=
  stringScan_id cs h1 h2 _ 0 []

/-! ### The comment scans are the identity on slash-pair-free text -/

theorem docScan_id (cs : List Char) (h : containsSub slashSlash cs = false) :
    docScan false cs = cs := by
  induction cs with
  | nil => rfl
  | cons c rest ih =>
    rw [containsSub_cons, Bool.or_eq_false_iff] at h
    have hcond : ¬ (c = '/' && isPref ['/', '/'] rest) = true := by
      intro hc
      rw [Bool.and_eq_true, decide_eq_true_eq] at hc
      obtain ⟨rfl, hc2⟩ := hc
      have hpp : isPref slashSlash ('/' :: rest) = true := by
        cases rest with
        | nil => simp [isPref] at hc2
        | cons d r2 =>
          simp only [isPref, Bool.and_eq_true, decide_eq_true_eq] at hc2
          obtain ⟨rfl, -⟩ := hc2
          simp [slashSlash, isPref]
      rw [hpp] at h
      exact absurd h.1 (by simp)
    simp [docScan, hcond, ih h.2]

theorem lineScan_id (cs : List Char) (h : containsSub slashSlash cs = false) :
    ∀ prev, lineScan prev false cs = cs := by
  induction cs with
  | nil => intro prev; rfl
  | cons c rest ih =>
    intro prev
    rw [containsSub_cons, Bool.or_eq_false_iff] at h
    have hcond : ¬ (c = '/' && isPref ['/'] rest) = true := by
      intro hc
      rw [Bool.and_eq_true, decide_eq_true_eq] at hc
      obtain ⟨rfl, hc2⟩ := hc
      have hpp : isPref slashSlash ('/' :: rest) = true := by
        cases rest with
        | nil => simp [isPref] at hc2
        | cons d r2 =>
          simp only [isPref, Bool.and_eq_true, decide_eq_true_eq] at hc2
          obtain ⟨rfl, -⟩ := hc2
          simp [slashSlash, isPref]
      rw [hpp] at h
      exact absurd h.1 (by simp)
    simp [lineScan, hcond, ih h.2]

/-! ### The block pass is the identity on text without an opener -/

theorem subIdx_none (pat cs : List Char) (h : containsSub pat cs = false) :
    subIdx pat cs = none := by
  cases e : subIdx pat cs with
  | none => rfl
  | some v =>
    rw [containsSub, e] at h
    simp at h

theorem indexOfFrom_none (pat cs : List Char) (h : containsSub pat cs = false) :
    indexOfFrom pat cs 0 = none := by
  simp [indexOfFrom, subIdx_none pat cs h]

theorem blockPass_id (cs : List Char) (h : containsSub slashStar cs = false) :
    blockPass cs = cs := by
  have hf : (cs.length + 2) * (cs.length + 2) =
      ((cs.length + 2) * (cs.length + 2) - 1) + 1 := by
    have : 1 ≤ (cs.length + 2) * (cs.length + 2) := Nat.one_le_iff_ne_zero.2 (by positivity)
    omega
  rw [blockPass, hf]
  simp [blockLoop, indexOfFrom_none _ _ h]

/-! ### The restore pass is the identity on sentinel-free text -/

theorem restoreScan_id (pres : List (List Char)) (cs : List Char)
    (h : containsSub presMark cs = false) :
    ∀ fuel, restoreScan pres fuel cs = cs := by
  induction cs with
  | nil => intro fuel; cases fuel <;> rfl
  | cons c rest ih =>
    intro fuel
    rw [containsSub_cons, Bool.or_eq_false_iff] at h
    cases fuel with
    | zero => rfl
    | succ fuel =>
      have hn : tryRestore pres (c :: rest) = none := by
        unfold tryRestore
        rw [if_neg]
        simp [h.1]
      simp [restoreScan, hn, ih h.2]

/-! ### Whitespace trimming lemmas -/

theorem takeWhile_all {p : Char → Bool} {l : List Char} (h : ∀ c ∈ l, p c = true) :
    l.takeWhile p = l := by
  induction l with
  | nil => rfl
  | cons c rest ih =>
    rw [List.takeWhile_cons_of_pos (h c (by simp))]
    rw [ih fun d hd => h d (List.mem_cons_of_mem _ hd)]

theorem trimEnd_nil : trimEnd [] = [] := rfl

theorem allWs_of_trimWs_nil {l : List Char} (h : trimWs l = []) :
    ∀ c ∈ l, isWs c = true := by
  rw [trimWs, trimEnd] at h
  have h2 : (l.dropWhile isWs).reverse.dropWhile isWs = [] := by
    have := congrArg List.reverse h
    simpa using this
  rw [List.dropWhile_eq_nil_iff] at h2
  have h3 : ∀ c ∈ l.dropWhile isWs, isWs c = true := by
    intro c hc
    exact h2 c (List.mem_reverse.2 hc)
  have h4 : l.dropWhile isWs = [] := by
    cases e : l.dropWhile isWs with
    | nil => rfl
    | cons d r2 =>
      have hd := List.head?_dropWhile_not isWs l
      rw [e] at hd
      simp only [List.head?_cons] at hd
      have hd2 : isWs d = true := h3 d (by simp [e])
      rw [hd2] at hd
      cases hd
  rw [List.dropWhile_eq_nil_iff] at h4
  exact h4

theorem trimWs_nil_of_allWs {l : List Char} (h : ∀ c ∈ l, isWs c = true) :
    trimWs l = [] := by
  rw [trimWs, List.dropWhile_eq_nil_iff.2 h, trimEnd_nil]

theorem takeWhile_eq_self_of_trimWs_nil {l : List Char} (h : trimWs l = []) :
    l.takeWhile isWs = l :=
  takeWhile_all (allWs_of_trimWs_nil h)

/-! ### Formatter identity on normalized lines -/

theorem mapOne_blank {prev next : Option (List Char)} {cur : List Char}
    (hb : trimWs cur = []) (hok : blankOkAt prev next = true) :
    mapOne prev cur next = some cur := by
  cases prev with
  | none => simp [blankOkAt] at hok
  | some p =>
    cases next with
    | none => simp [blankOkAt] at hok
    | some n =>
      simp only [blankOkAt, Bool.and_eq_true, Bool.not_eq_true', decide_eq_true_eq] at hok
      obtain ⟨⟨⟨⟨hp, hn⟩, hdot⟩, hbrace⟩, hclose⟩ := hok
      simp only [mapOne, Option.map_some']
      rw [if_pos hb]
      have hdot2 : (optEndsPar (some (trimWs p)) && optStartsDot (some (trimWs n))) = false := by
        simpa [optEndsPar, optStartsDot] using hdot
      rw [if_neg (by simp [hdot2])]
      have hkeep : blankMapKeep (some (trimWs p)) (some (trimWs n)) = true := by
        simp [blankMapKeep, hp, hn, hbrace, hclose]
      rw [if_pos hkeep, takeWhile_eq_self_of_trimWs_nil hb]

theorem mapOne_nonblank {prev next : Option (List Char)} {cur : List Char}
    (hb : trimWs cur ≠ []) (hw : noTrailWs cur = true) :
    mapOne prev cur next = some cur := by
  simp only [mapOne, if_neg hb]
  by_cases hm : (containsSub presMark (trimWs cur) || containsSub tripleD (trimWs cur) ||
      containsSub tripleS (trimWs cur)) = true
  · rw [if_pos hm]
  · rw [if_neg hm]
    rw [noTrailWs, decide_eq_true_eq] at hw
    rw [← hw]

theorem mapLines_ok : ∀ (L : List (List Char)) (prev : Option (List Char)),
    linesOk prev L = true → mapLines prev L = L.map some := by
  intro L
  induction L with
  | nil => intro prev _; rfl
  | cons cur rest ih =>
    intro prev h
    simp only [linesOk, Bool.and_eq_true] at h
    obtain ⟨h1, h2⟩ := h
    simp only [mapLines, List.map_cons]
    rw [ih (some cur) h2]
    by_cases hb : trimWs cur = []
    · rw [if_pos hb] at h1
      rw [mapOne_blank hb h1]
    · rw [if_neg hb] at h1
      rw [mapOne_nonblank hb h1]

theorem filterStep_ok : ∀ (L : List (List Char)) (prev pNE : Option (List Char)),
    linesOk prev L = true →
    (∀ l0, L.head? = some l0 → trimWs l0 = [] → pNE = prev) →
    filterStep pNE (L.map some) = L := by
  intro L
  induction L with
  | nil => intro prev pNE _ _; rfl
  | cons cur rest ih =>
    intro prev pNE h hcompat
    simp only [linesOk, Bool.and_eq_true] at h
    obtain ⟨h1, h2⟩ := h
    simp only [List.map_cons, filterStep]
    by_cases hb : trimWs cur = []
    · rw [if_pos hb] at h1
      rw [if_neg (by simp [hb])]
      have hpe : pNE = prev := hcompat cur rfl hb
      subst hpe
      cases pNE with
      | none => simp [blankOkAt] at h1
      | some p =>
        cases rest with
        | nil => simp [blankOkAt] at h1
        | cons n r2 =>
          simp only [List.head?_cons] at h1
          simp only [blankOkAt, Bool.and_eq_true, Bool.not_eq_true',
            decide_eq_true_eq] at h1
          obtain ⟨⟨⟨⟨hp, hn⟩, hdot⟩, hbrace⟩, hclose⟩ := h1
          have hfind : findNE ((n :: r2).map some) = some n := by
            simp only [List.map_cons, findNE]
            rw [if_pos hn]
          rw [hfind]
          have hkeep : blankKeep (some p) (some n) = true := by
            simp [blankKeep, hbrace, hclose]
          rw [if_pos hkeep]
          congr 1
          refine ih (some cur) (some p) h2 ?_
          intro l0 hl0 hb0
          simp only [List.head?_cons, Option.some.injEq] at hl0
          subst hl0
          exact absurd hb0 hn
    · rw [if_neg hb] at h1
      rw [if_pos (by simpa using hb)]
      congr 1
      exact ih (some cur) (some cur) h2 (fun _ _ _ => rfl)

theorem splitLines_ne_nil (x : List Char) : splitLines x ≠ [] := by
  cases x with
  | nil => simp [splitLines]
  | cons c rest =>
    simp only [splitLines]
    by_cases hc : c = '\n'
    · simp [hc]
    · rw [if_neg hc]
      cases splitLines rest <;> simp

theorem joinLines_splitLines : ∀ x : List Char, joinLines (splitLines x) = x := by
  intro x
  induction x with
  | nil => rfl
  | cons c rest ih =>
    simp only [splitLines]
    by_cases hc : c = '\n'
    · rw [if_pos hc]
      cases e : splitLines rest with
      | nil => exact absurd e (splitLines_ne_nil rest)
      | cons l ls =>
        show [] ++ '\n' :: joinLines (l :: ls) = c :: rest
        rw [← e, ih, hc]
        rfl
    · rw [if_neg hc]
      cases e : splitLines rest with
      | nil => exact absurd e (splitLines_ne_nil rest)
      | cons l ls =>
        rw [e] at ih
        cases ls with
        | nil =>
          show c :: l = c :: rest
          rw [show joinLines [l] = l from rfl] at ih
          rw [ih]
        | cons l2 ls2 =>
          show (c :: l) ++ '\n' :: joinLines (l2 :: ls2) = c :: rest
          rw [show joinLines (l :: l2 :: ls2) = l ++ '\n' :: joinLines (l2 :: ls2) from rfl] at ih
          rw [List.cons_append, ih]

theorem formatter_id (cs : List Char) (h : linesOk none (splitLines cs) = true) :
    formatter cs = cs := by
  rw [formatter, mapLines_ok _ _ h,
    filterStep_ok _ none none h (fun _ _ _ => rfl),
    joinLines_splitLines]

/-! ### The transformation is the identity on clean inputs -/

theorem process_clean_id (x : List Char) (h : cleanInput x = true) : process x = x := by
  simp only [cleanInput, Bool.and_eq_true, Bool.not_eq_true', decide_eq_true_eq] at h
  obtain ⟨⟨⟨⟨⟨hss, hst⟩, hq1⟩, hq2⟩, hpm⟩, hfmt⟩ := h
  have hsp : stringPass x = (x, []) := stringPass_id x hq1 hq2
  simp only [process, hsp]
  rw [docScan_id x hss, lineScan_id x hss, blockPass_id x hst, restorePass,
    restoreScan_id [] x hpm, formatter_id x hfmt]

/-! ### Comment scans consume to end of line -/

theorem docScan_skip (b c : List Char) (hb : '\n' ∉ b) :
    docScan true (b ++ '\n' :: c) = '\n' :: docScan false c := by
  induction b with
  | nil => simp [docScan]
  | cons x xs ih =>
    have hx : ¬ x = '\n' := fun hx => hb (hx ▸ List.mem_cons_self _ _)
    have hxs : '\n' ∉ xs := fun hm => hb (List.mem_cons_of_mem _ hm)
    simp only [List.cons_append, docScan, if_neg hx]
    exact ih hxs

theorem lineScan_skip (b c : List Char) (hb : '\n' ∉ b) :
    lineScan none true (b ++ '\n' :: c) = '\n' :: lineScan (some '\n') false c := by
  induction b with
  | nil => simp [lineScan]
  | cons x xs ih =>
    have hx : ¬ x = '\n' := fun hx => hb (hx ▸ List.mem_cons_self _ _)
    have hxs : '\n' ∉ xs := fun hm => hb (List.mem_cons_of_mem _ hm)
    simp only [List.cons_append, lineScan, if_neg hx]
    exact ih hxs

/-! ### Trim shape lemmas -/

theorem takeWhile_append_all {p : Char → Bool} {u : List Char} (v : List Char)
    (h : ∀ a ∈ u, p a = true) : (u ++ v).takeWhile p = u ++ v.takeWhile p := by
  induction u with
  | nil => simp
  | cons a u2 ih =>
    rw [List.cons_append, List.takeWhile_cons_of_pos (h a (by simp)), List.cons_append,
      ih fun a2 ha2 => h a2 (List.mem_cons_of_mem _ ha2)]

theorem dropWhile_append_all {p : Char → Bool} {u : List Char} (v : List Char)
    (h : ∀ a ∈ u, p a = true) : (u ++ v).dropWhile p = v.dropWhile p := by
  induction u with
  | nil => simp
  | cons a u2 ih =>
    rw [List.cons_append, List.dropWhile_cons_of_pos (h a (by simp)),
      ih fun a2 ha2 => h a2 (List.mem_cons_of_mem _ ha2)]

theorem mem_takeWhile_ws {l : List Char} : ∀ a ∈ l.takeWhile isWs, isWs a = true := by
  induction l with
  | nil => simp
  | cons c rest ih =>
    by_cases hc : isWs c = true
    · rw [List.takeWhile_cons_of_pos hc]
      intro a ha
      rcases List.mem_cons.1 ha with rfl | ha
      · exact hc
      · exact ih a ha
    · rw [List.takeWhile_cons_of_neg (by simpa using hc)]
      simp

theorem trimEnd_pref (z : List Char) : trimEnd z <+: z := by
  rw [trimEnd]
  have h2 := List.reverse_prefix.2 (List.dropWhile_suffix (l := z.reverse) isWs)
  rwa [List.reverse_reverse] at h2

theorem head?_of_pref {l1 l2 : List Char} (h : l1 <+: l2) (hne : l1 ≠ []) :
    l2.head? = l1.head? := by
  obtain ⟨r, rfl⟩ := h
  cases l1 with
  | nil => exact absurd rfl hne
  | cons a t => simp

theorem trimWs_head? {l : List Char} (h : trimWs l ≠ []) :
    ∃ d, (trimWs l).head? = some d ∧ isWs d = false := by
  have hpref : trimWs l <+: l.dropWhile isWs := trimEnd_pref _
  have hne2 : l.dropWhile isWs ≠ [] := by
    intro h0
    rw [trimWs, h0] at h
    exact h rfl
  have hh := head?_of_pref hpref h
  cases e : (trimWs l).head? with
  | none => simp [List.head?_eq_none_iff] at e; exact absurd e h
  | some d =>
    refine ⟨d, rfl, ?_⟩
    have hd := List.head?_dropWhile_not isWs l
    rw [hh, e] at hd
    exact hd

theorem trimWs_getLast? {l : List Char} (h : trimWs l ≠ []) :
    ∃ d, (trimWs l).getLast? = some d ∧ isWs d = false := by
  set w := (l.dropWhile isWs).reverse.dropWhile isWs with hw
  have hwr : trimWs l = w.reverse := rfl
  have hwne : w ≠ [] := by
    intro h0
    rw [hwr, h0] at h
    exact h rfl
  cases e : w.head? with
  | none => rw [List.head?_eq_none_iff] at e; exact absurd e hwne
  | some d =>
    refine ⟨d, ?_, ?_⟩
    · rw [hwr, List.getLast?_reverse, e]
    · have hd := List.head?_dropWhile_not isWs (l.dropWhile isWs).reverse
      rw [← hw, e] at hd
      exact hd

theorem takeWhile_nil_of_head {p : Char → Bool} {v : List Char} {d : Char}
    (h : v.head? = some d) (hd : p d = false) : v.takeWhile p = [] := by
  cases v with
  | nil => simp at h
  | cons a t =>
    rw [List.head?_cons, Option.some.injEq] at h
    subst h
    exact List.takeWhile_cons_of_neg (by simp [hd])

theorem dropWhile_id_of_head {p : Char → Bool} {v : List Char} {d : Char}
    (h : v.head? = some d) (hd : p d = false) : v.dropWhile p = v := by
  cases v with
  | nil => simp at h
  | cons a t =>
    rw [List.head?_cons, Option.some.injEq] at h
    subst h
    exact List.dropWhile_cons_of_neg (by simp [hd])

theorem trimEnd_of_getLast {v : List Char} {d : Char}
    (h : v.getLast? = some d) (hd : isWs d = false) : trimEnd v = v := by
  rw [trimEnd]
  have hh : v.reverse.head? = some d := by
    rw [List.head?_reverse, h]
  rw [dropWhile_id_of_head hh hd, List.reverse_reverse]

/-- The key shape fact: re-emitting a line as indent plus trim is stable. -/
theorem indent_trim_stable {cur : List Char} (h : trimWs cur ≠ []) :
    (cur.takeWhile isWs ++ trimWs cur).takeWhile isWs = cur.takeWhile isWs ∧
    trimWs (cur.takeWhile isWs ++ trimWs cur) = trimWs cur := by
  obtain ⟨d, hd, hdw⟩ := trimWs_head? h
  obtain ⟨g, hg, hgw⟩ := trimWs_getLast? h
  constructor
  · rw [takeWhile_append_all _ mem_takeWhile_ws, takeWhile_nil_of_head hd hdw,
      List.append_nil]
  · rw [trimWs, dropWhile_append_all _ mem_takeWhile_ws, dropWhile_id_of_head hd hdw,
      trimEnd_of_getLast hg hgw]

/-! ### Output line shape for the formatter -/

/-- Marker content of a line (preserved-string sentinel or triple quotes),
tested on the trimmed line as at lines 219-221. -/
def lineMarkers (l : List Char) : Bool :=
  containsSub presMark (trimWs l) || containsSub tripleD (trimWs l) ||
    containsSub tripleS (trimWs l)

theorem trimWs_subset {l : List Char} : ∀ a ∈ trimWs l, a ∈ l := by
  intro a ha
  have h1 : a ∈ l.dropWhile isWs := (trimEnd_pref _).subset ha
  exact (List.dropWhile_suffix isWs).subset h1

theorem mapOne_shape {prev next : Option (List Char)} {cur l : List Char}
    (h : mapOne prev cur next = some l) (hnl : '\n' ∉ cur) :
    '\n' ∉ l ∧ (trimWs l ≠ [] → lineMarkers l = false →
      l = l.takeWhile isWs ++ trimWs l) := by
  rw [mapOne] at h
  by_cases hb : trimWs cur = []
  · rw [if_pos hb] at h
    by_cases h1 : (optEndsPar (prev.map trimWs) && optStartsDot (next.map trimWs)) = true
    · rw [if_pos h1] at h
      cases h
    · rw [if_neg h1] at h
      by_cases h2 : blankMapKeep (prev.map trimWs) (next.map trimWs) = true
      · rw [if_pos h2] at h
        rw [Option.some.injEq] at h
        subst h
        refine ⟨fun hm => hnl ((List.takeWhile_prefix _).subset hm), fun ht _ => ?_⟩
        have : trimWs (cur.takeWhile isWs) = [] := trimWs_nil_of_allWs mem_takeWhile_ws
        exact absurd this ht
      · rw [if_neg h2] at h
        cases h
  · rw [if_neg hb] at h
    by_cases hm : (containsSub presMark (trimWs cur) || containsSub tripleD (trimWs cur) ||
        containsSub tripleS (trimWs cur)) = true
    · rw [if_pos hm] at h
      rw [Option.some.injEq] at h
      subst h
      refine ⟨hnl, fun _ hmk => ?_⟩
      rw [lineMarkers] at hmk
      rw [hmk] at hm
      cases hm
    · rw [if_neg hm] at h
      rw [Option.some.injEq] at h
      subst h
      obtain ⟨h1, h2⟩ := indent_trim_stable hb
      refine ⟨?_, fun _ _ => ?_⟩
      · intro hmem
        rcases List.mem_append.1 hmem with hmem | hmem
        · exact hnl ((List.takeWhile_prefix _).subset hmem)
        · exact hnl (trimWs_subset _ hmem)
      · rw [h1, h2]

theorem mapLines_mem : ∀ (L : List (List Char)) (prev : Option (List Char))
    (o : Option (List Char)), o ∈ mapLines prev L →
    ∃ p c n, c ∈ L ∧ o = mapOne p c n := by
  intro L
  induction L with
  | nil => intro prev o h; simp [mapLines] at h
  | cons cur rest ih =>
    intro prev o h
    rw [mapLines, List.mem_cons] at h
    rcases h with rfl | h
    · exact ⟨prev, cur, rest.head?, by simp, rfl⟩
    · obtain ⟨p, c, n, hc, ho⟩ := ih (some cur) o h
      exact ⟨p, c, n, List.mem_cons_of_mem _ hc, ho⟩

theorem filterStep_mem : ∀ (arr : List (Option (List Char))) (pNE : Option (List Char))
    (l : List Char), l ∈ filterStep pNE arr → some l ∈ arr := by
  intro arr
  induction arr with
  | nil => intro pNE l h; simp [filterStep] at h
  | cons o rest ih =>
    intro pNE l h
    cases o with
    | none =>
      rw [filterStep] at h
      exact List.mem_cons_of_mem _ (ih pNE l h)
    | some l0 =>
      rw [filterStep] at h
      by_cases h1 : trimWs l0 ≠ []
      · rw [if_pos h1, List.mem_cons] at h
        rcases h with rfl | h
        · simp
        · exact List.mem_cons_of_mem _ (ih (some l0) l h)
      · rw [if_neg h1] at h
        by_cases h2 : blankKeep pNE (findNE rest) = true
        · rw [if_pos h2, List.mem_cons] at h
          rcases h with rfl | h
          · simp
          · exact List.mem_cons_of_mem _ (ih pNE l h)
        · rw [if_neg h2] at h
          exact List.mem_cons_of_mem _ (ih pNE l h)

theorem splitLines_no_newline : ∀ (x : List Char) (L : List Char),
    L ∈ splitLines x → '\n' ∉ L := by
  intro x
  induction x with
  | nil => intro L h; simp [splitLines] at h; subst h; simp
  | cons c rest ih =>
    intro L h
    rw [splitLines] at h
    by_cases hc : c = '\n'
    · rw [if_pos hc, List.mem_cons] at h
      rcases h with rfl | h
      · simp
      · exact ih L h
    · rw [if_neg hc] at h
      cases e : splitLines rest with
      | nil => exact absurd e (splitLines_ne_nil rest)
      | cons l ls =>
        rw [e] at h
        rw [List.mem_cons] at h
        rcases h with rfl | h
        · intro hm
          rcases List.mem_cons.1 hm with h2 | h2
          · exact hc h2.symm
          · exact ih l (e ▸ List.mem_cons_self _ _) h2
        · exact ih L (e ▸ List.mem_cons_of_mem _ h)

theorem splitLines_no_nl_id {l : List Char} (h : '\n' ∉ l) : splitLines l = [l] := by
  induction l with
  | nil => rfl
  | cons c rest ih =>
    have hc : ¬ c = '\n' := fun hc => h (hc ▸ List.mem_cons_self _ _)
    have hr : '\n' ∉ rest := fun hm => h (List.mem_cons_of_mem _ hm)
    rw [splitLines, if_neg hc, ih hr]

theorem splitLines_append {l : List Char} (z : List Char) (h : '\n' ∉ l) :
    splitLines (l ++ '\n' :: z) = l :: splitLines z := by
  induction l with
  | nil => simp [splitLines]
  | cons c rest ih =>
    have hc : ¬ c = '\n' := fun hc => h (hc ▸ List.mem_cons_self _ _)
    have hr : '\n' ∉ rest := fun hm => h (List.mem_cons_of_mem _ hm)
    rw [List.cons_append, splitLines, if_neg hc, ih hr]

theorem splitLines_joinLines : ∀ ls : List (List Char), ls ≠ [] →
    (∀ l ∈ ls, '\n' ∉ l) → splitLines (joinLines ls) = ls := by
  intro ls
  induction ls with
  | nil => intro h _; exact absurd rfl h
  | cons l ls2 ih =>
    intro _ hnl
    cases ls2 with
    | nil =>
      show splitLines l = [l]
      exact splitLines_no_nl_id (hnl l (by simp))
    | cons l2 ls3 =>
      show splitLines (l ++ '\n' :: joinLines (l2 :: ls3)) = l :: l2 :: ls3
      rw [splitLines_append _ (hnl l (by simp))]
      rw [ih (by simp) fun l0 hl0 => hnl l0 (List.mem_cons_of_mem _ hl0)]

/-- Every non-blank, marker-free line of the formatter output is its leading
whitespace followed by its trimmed content. -/
theorem formatter_shape (y L : List Char) (hmem : L ∈ splitLines (formatter y))
    (hnb : trimWs L ≠ []) (hmk : lineMarkers L = false) :
    L = L.takeWhile isWs ++ trimWs L := by
  rw [formatter] at hmem
  set mapped := mapLines none (splitLines y) with hmapped
  set kept := filterStep none mapped with hkept
  have hprop : ∀ l ∈ kept, '\n' ∉ l ∧ (trimWs l ≠ [] → lineMarkers l = false →
      l = l.takeWhile isWs ++ trimWs l) := by
    intro l hl
    have h1 : some l ∈ mapped := filterStep_mem mapped none l hl
    obtain ⟨p, c, n, hc, ho⟩ := mapLines_mem (splitLines y) none (some l) h1
    exact mapOne_shape ho.symm (splitLines_no_newline y c hc)
  cases e : kept with
  | nil =>
    rw [e] at hmem
    have : splitLines (joinLines ([] : List (List Char))) = [[]] := rfl
    rw [this] at hmem
    rw [List.mem_singleton] at hmem
    subst hmem
    exact absurd rfl hnb
  | cons k ks =>
    rw [e] at hmem
    rw [splitLines_joinLines (k :: ks) (by simp)
      (fun l hl => (hprop l (e ▸ hl)).1)] at hmem
    exact (hprop L (e ▸ hmem)).2 hnb hmk

/-! ## Claim theorems -/

/-- C1: the claim states that every string-literal body containing `//`,
`/* */` or `///` is preserved byte-for-byte, including literals with
`${...}` interpolation holes.  The code violates this: a string literal
containing an interpolation hole is not protected by a placeholder, so the
global line-comment pass destroys its literal text.  This theorem evaluates
the transformation at the failing input `'a // b ${x}'`: the output is
`'a` — the body `a // b ${x}` is not present in the output. -/
theorem c1_interpolated_string_body_destroyed :
    processStr "\x27a // b $\x7bx\x7d\x27" = "\x27a" := by decide

/-- C2 counterexample: the transformation is not idempotent.  For the
input `a/ /*c*/*z`, removing the block comment glues `a/` to `*z`,
creating a new `/*` opener that the resumed scan misses; the first pass
outputs `a/*z` and a second pass strips it to `a`. -/
theorem c2_not_idempotent :
    processStr (processStr "a/ /*c*/*z") ≠ processStr "a/ /*c*/*z" := by decide

/-- C2 amended: idempotence holds on inputs the transformation leaves
unchanged — those with no comment delimiters, no string quotes, no
sentinel text, and normalized whitespace and blank lines. -/
theorem c2_idempotent_on_clean (x : List Char) (h : cleanInput x = true) :
    process (process x) = process x := by
  rw [process_clean_id x h, process_clean_id x h]

/-- Witness for C2 amended at the concrete clean input `a\n\nb`. -/
theorem c2_idempotent_on_clean_witness :
    cleanInput ("a\n\nb" : String).toList = true ∧
    process (process ("a\n\nb" : String).toList) = process ("a\n\nb" : String).toList :=
  ⟨by decide, c2_idempotent_on_clean _ (by decide)⟩

/-- C3 counterexample: an input with no comments and no string literals is
not always returned unchanged — the formatter strips trailing whitespace,
so `a ` (with a trailing space) becomes `a`. -/
theorem c3_not_identity :
    processStr "a " ≠ "a " := by decide

/-- C3 amended: the transformation returns the input unchanged when the
input has no comment delimiters, no string quotes, no sentinel text, no
trailing whitespace, and blank lines only in positions the formatter
keeps. -/
theorem c3_identity_on_clean (x : List Char) (h : cleanInput x = true) :
    process x = x :=
  process_clean_id x h

/-- Witness for C3 amended at the concrete clean input `a\n\nb`. -/
theorem c3_identity_on_clean_witness :
    cleanInput ("a\n\nb" : String).toList = true ∧
    process ("a\n\nb" : String).toList = ("a\n\nb" : String).toList :=
  ⟨by decide, c3_identity_on_clean _ (by decide)⟩

/-- C4 counterexample: comments inside a raw string's interpolation hole
are not removed "exactly as for non-raw strings".  The interpolation
callback preserves a raw-string hole containing `//`, and the later global
line-comment pass then strips from the `//` to the end of the line,
destroying the hole's closing delimiter: `r'${a // c}'` becomes `r'${a`,
while the non-raw `'${a // c}'` becomes `'${a}'` — the outputs differ
beyond the `r` prefix. -/
theorem c4_raw_hole_differs :
    processStr "r\x27$\x7ba // c\x7d\x27" = "r\x27$\x7ba" ∧
    processStr "\x27$\x7ba // c\x7d\x27" = "\x27$\x7ba\x7d\x27" ∧
    (processStr "r\x27$\x7ba // c\x7d\x27").toList ≠
      'r' :: (processStr "\x27$\x7ba // c\x7d\x27").toList := by
  refine ⟨by decide, by decide, by decide⟩

/-- C4 amended: comments inside raw-string holes are handled by the later
global passes, not the interpolation callback: a block comment inside the
hole is removed with the hole structure kept (`r'${a /* c */}'` gives
`r'${a}'`), while a line comment is stripped through end of line together
with the rest of the line, including the hole's closing delimiter
(`r'${a // c}'` gives `r'${a`). -/
theorem c4_raw_hole_actual_behavior :
    processStr "r\x27$\x7ba /* c */\x7d\x27" = "r\x27$\x7ba\x7d\x27" ∧
    processStr "r\x27$\x7ba // c\x7d\x27" = "r\x27$\x7ba" := by
  refine ⟨by decide, by decide⟩

/-- C5 counterexample: for `code1\n// c\ncode2` the output is not
`code1\ncode2` — the blank line left where the comment was removed is kept
by the formatter, because its neighbours do not involve braces. -/
theorem c5_not_collapsed :
    processStr "code1\n// c\ncode2" ≠ "code1\ncode2" := by decide

/-- C5 amended: the comment is removed but its line survives as a blank
line: the output is `code1\n\ncode2`. -/
theorem c5_blank_line_kept :
    processStr "code1\n// c\ncode2" = "code1\n\ncode2" := by decide

/-- C6: nested block comments are matched innermost-first and the whole
outermost span is removed: `/* a /* b */ c */x` becomes `x`. -/
theorem c6_nested_block_removed :
    processStr "/* a /* b */ c */x" = "x" := by decide

/-- C7 counterexample: comment sequences after an unmatched opening quote
do not survive.  The input `'a // b` contains `//` after the unmatched
quote, the output is `'a`, and no `//` remains in it. -/
theorem c7_unterminated_not_protected :
    containsSub slashSlash ("\x27a // b" : String).toList = true ∧
    processStr "\x27a // b" = "\x27a" ∧
    containsSub slashSlash (processStr "\x27a // b").toList = false := by
  refine ⟨by decide, by decide, by decide⟩

/-- C7 amended: an unterminated string literal receives no protection at
all — the string-literal regex simply fails to match it, and comment
recognition proceeds as in code context after the unmatched quote:
`'a // b` gives `'a` and `'a /* b */ c` gives `'a c`. -/
theorem c7_unterminated_stripped_as_code :
    processStr "\x27a // b" = "\x27a" ∧
    processStr "\x27a /* b */ c" = "\x27a c" := by
  refine ⟨by decide, by decide⟩

/-- C8: in code context, `///` starts a comment removed through end of
line; `//` not preceded by `:` starts a comment removed through end of
line; `//` immediately preceded by `:` is not a comment start and both
slashes are preserved; and the whole transformation keeps `a://b`
unchanged.  The doc pass runs before the line pass (lines 135 and 138), so
`///` is recognized with higher priority. -/
theorem c8_line_and_doc_comment_rules (b c r : List Char) (prev : Option Char) (d : Char)
    (hb : '\n' ∉ b) (hp : prev ≠ some ':') (hd : d ≠ '/') :
    docScan false ('/' :: '/' :: '/' :: (b ++ '\n' :: c)) = '\n' :: docScan false c ∧
    lineScan prev false ('/' :: '/' :: (b ++ '\n' :: c)) =
      '\n' :: lineScan (some '\n') false c ∧
    lineScan (some ':') false ('/' :: '/' :: d :: r) =
      '/' :: '/' :: lineScan (some '/') false (d :: r) ∧
    processStr "a://b" = "a://b" := by
  refine ⟨?_, ?_, ?_, by decide⟩
  · rw [docScan, if_pos (by simp [isPref])]
    show docScan true (('/' :: '/' :: b) ++ '\n' :: c) = '\n' :: docScan false c
    refine docScan_skip _ _ ?_
    intro hm
    rcases List.mem_cons.1 hm with h1 | hm
    · cases h1
    rcases List.mem_cons.1 hm with h1 | hm
    · cases h1
    exact hb hm
  · rw [lineScan, if_pos (by simp [isPref]), if_neg hp]
    show lineScan none true (('/' :: b) ++ '\n' :: c) = '\n' :: lineScan (some '\n') false c
    refine lineScan_skip _ _ ?_
    intro hm
    rcases List.mem_cons.1 hm with h1 | hm
    · cases h1
    exact hb hm
  · rw [lineScan, if_pos (by simp [isPref]), if_pos rfl]
    rw [lineScan, if_neg (by simp [isPref]; intro h; exact absurd h.symm hd)]

/-- Witness for C8 at concrete instantiations. -/
theorem c8_line_and_doc_comment_rules_witness :
    (docScan false ('/' :: '/' :: '/' :: (['c'] ++ '\n' :: ['z'])) =
      '\n' :: docScan false ['z'] ∧
    lineScan none false ('/' :: '/' :: (['c'] ++ '\n' :: ['z'])) =
      '\n' :: lineScan (some '\n') false ['z'] ∧
    lineScan (some ':') false ('/' :: '/' :: 'x' :: []) =
      '/' :: '/' :: lineScan (some '/') false ('x' :: []) ∧
    processStr "a://b" = "a://b") :=
  c8_line_and_doc_comment_rules ['c'] ['z'] [] none 'x' (by decide) (by decide) (by decide)

/-- C9: every non-blank line of the output whose trimmed content contains
no `PRESERVED_STRING_` sentinel, no `"""` and no `'''` equals its leading
whitespace followed by its trimmed content — in particular the
transformation strips trailing whitespace from every such line. -/
theorem c9_output_lines_trimmed (x L : List Char)
    (hmem : L ∈ splitLines (process x)) (hnb : trimWs L ≠ [])
    (hmk : lineMarkers L = false) :
    L = L.takeWhile isWs ++ trimWs L := by
  have hx : process x = formatter (restorePass (stringPass x).2
      (blockPass (lineScan none false (docScan false (stringPass x).1)))) := rfl
  rw [hx] at hmem
  exact formatter_shape _ L hmem hnb hmk

/-- Witness for C9 at the concrete input `a`. -/
theorem c9_output_lines_trimmed_witness :
    (['a'] : List Char) ∈ splitLines (process ['a']) ∧
    (['a'] : List Char) = (['a'] : List Char).takeWhile isWs ++ trimWs ['a'] :=
  ⟨by decide, c9_output_lines_trimmed ['a'] ['a'] (by decide) (by decide) (by decide)⟩

/-- C10: user content colliding with the internal sentinel is corrupted:
the input `PRESERVED_STRING_0` contains no string literal, so nothing is
preserved, and the restoration pass replaces the sentinel text with the
JS string `undefined`. -/
theorem c10_sentinel_collision :
    processStr "PRESERVED_STRING_0" = "undefined" := by decide

end Racfp
